import Mathlib

/-!
Shallow embedding of the 302_ray_tracer rendering core.

Doubles are modelled as real numbers; the program's `inf` constant
(IEEE +infinity, used as an interval bound) is modelled by working with
`EReal` for interval bounds, while all computed quantities stay in `ℝ`.
Floating-point rounding is outside the model.
-/

namespace RT

/-- Modelled from the spec: `vec3.h` is not among the provided sources.
Per the spec's data model, `Vec3` is a 3-component real vector with
arithmetic, dot product, length and normalization. -/
structure Vec3 where
  x : ℝ
  y : ℝ
  z : ℝ

abbrev Point3 := Vec3

abbrev Color := Vec3

instance : Inhabited Vec3 := ⟨⟨0, 0, 0⟩⟩

noncomputable instance : Add Vec3 := ⟨fun a b => ⟨a.x + b.x, a.y + b.y, a.z + b.z⟩⟩

noncomputable instance : Sub Vec3 := ⟨fun a b => ⟨a.x - b.x, a.y - b.y, a.z - b.z⟩⟩

noncomputable instance : Neg Vec3 := ⟨fun a => ⟨-a.x, -a.y, -a.z⟩⟩

/-- Scalar multiplication `t * v`, as in `vec3.h`. -/
noncomputable instance : HMul ℝ Vec3 Vec3 := ⟨fun t v => ⟨t * v.x, t * v.y, t * v.z⟩⟩

/-- Componentwise product `u * v` (used for color attenuation). -/
noncomputable instance : HMul Vec3 Vec3 Vec3 := ⟨fun a b => ⟨a.x * b.x, a.y * b.y, a.z * b.z⟩⟩

/-- Division of a vector by a scalar, as in `vec3.h`. -/
noncomputable instance : HDiv Vec3 ℝ Vec3 := ⟨fun v t => ⟨v.x / t, v.y / t, v.z / t⟩⟩

/-- Modelled from the spec: the dot product of the vector algebra. -/
noncomputable def dot (a b : Vec3) : ℝ := a.x * b.x + a.y * b.y + a.z * b.z

/-- Modelled from the spec: squared length of a vector. -/
noncomputable def Vec3.length_squared (v : Vec3) : ℝ := v.x * v.x + v.y * v.y + v.z * v.z

/-- Modelled from the spec: euclidean length of a vector. -/
noncomputable def Vec3.length (v : Vec3) : ℝ := Real.sqrt v.length_squared

/-- Modelled from the spec: normalization of a vector. -/
noncomputable def unit_vector (v : Vec3) : Vec3 := v / v.length

/-- Modelled from the spec: the "numerically degenerate (near zero length)"
test used by the Lambertian scatter fallback; true iff every component is
smaller than a tiny epsilon in absolute value. -/
noncomputable def Vec3.near_zero (v : Vec3) : Prop :=
  |v.x| < 1e-8 ∧ |v.y| < 1e-8 ∧ |v.z| < 1e-8

noncomputable instance (v : Vec3) : Decidable v.near_zero := by
  unfold Vec3.near_zero; infer_instance

/-- The `Ray` class of `ray.h`: origin plus direction. -/
structure Ray where
  orig : Point3
  dir : Vec3

instance : Inhabited Ray := ⟨⟨default, default⟩⟩

/-- Parametric point evaluation `Ray::at`. -/
noncomputable def Ray.at (r : Ray) (t : ℝ) : Point3 := r.orig + t * r.dir

/-- The `Interval` class of `interval.h`.  The C++ fields are doubles that
may hold the `inf` constant, so the bounds are modelled as `EReal`. -/
structure Interval where
  min : EReal
  max : EReal

/-- Strict containment test `Interval::surrounds`. -/
def Interval.surrounds (i : Interval) (x : ℝ) : Prop :=
  i.min < (x : EReal) ∧ (x : EReal) < i.max

noncomputable instance (i : Interval) (x : ℝ) : Decidable (i.surrounds x) := by
  unfold Interval.surrounds; infer_instance

/-- Inclusive containment test `Interval::contains`. -/
def Interval.contains (i : Interval) (x : ℝ) : Prop :=
  i.min ≤ (x : EReal) ∧ (x : EReal) ≤ i.max

/-- Clamping `Interval::clamp`: `std::max(min, std::min(x, max))`. -/
noncomputable def Interval.clamp (i : Interval) (x : ℝ) : EReal :=
  Max.max i.min (Min.min (x : EReal) i.max)

/-- The `Material` class hierarchy of `material.h` as a closed set of
variants: the concrete base class `Material` (default `scatter` returns
false), `Constant`, `ShowNormals` and `Lambertian`. -/
inductive Material where
  | base : Material
  | Constant (color : Color) : Material
  | ShowNormals (albedo : Color) : Material
  | Lambertian (albedo : Color) : Material

/-- The `Hit_record` class of `hittable.h`.  `mat_ptr` is a possibly-null
`shared_ptr<Material>`, modelled as an `Option`.  The C++ default
constructor leaves the numeric fields indeterminate; the model uses zeros,
and no modelled code reads them before writing them. -/
structure Hit_record where
  p : Point3
  normal : Vec3
  t : ℝ
  frontFacing : Bool
  mat_ptr : Option Material

instance : Inhabited Hit_record := ⟨⟨default, default, 0, false, none⟩⟩

/-- `Hit_record::set_face_normal` from `hittable.h`: orients the stored
normal against the incoming ray and records the front-face flag. -/
noncomputable def Hit_record.set_face_normal (rec : Hit_record) (r : Ray)
    (outward_normal : Vec3) : Hit_record :=
  let ff : Bool := decide (dot r.dir outward_normal < 0)
  { rec with frontFacing := ff, normal := if ff then outward_normal else -outward_normal }

/-- The closed world of `Hittable` implementations present in the code:
`Sphere` (center, radius, material) and `Hittable_list` (a vector of
hittables).  The `Sphere` constructor clamp `fmax(0, radius)` is modelled
by `mkSphere` below. -/
inductive Hittable where
  | sphere (center : Point3) (radius : ℝ) (mat : Material) : Hittable
  | list (objects : List Hittable) : Hittable

/-- The `Sphere` constructor, which clamps the radius to be non-negative. -/
def mkSphere (center : Point3) (radius : ℝ) (mat : Material) : Hittable :=
  .sphere center (max 0 radius) mat

/-- The record-writing tail of `Sphere::hit` once a root has been accepted:
`rec.t = root; rec.p = r.at(rec.t); rec.normal = (rec.p - center) / radius;
rec.mat_ptr = mat;`.  Note that `frontFacing` is not written. -/
noncomputable def sphereWrite (center : Point3) (radius : ℝ) (mat : Material) (r : Ray)
    (root : ℝ) (rec : Hit_record) : Hit_record :=
  { rec with
    t := root
    p := r.at root
    normal := (r.at root - center) / radius
    mat_ptr := some mat }

/-- The body of `Sphere::hit` from `sphere.h`.  The boolean result is the
C++ return value; the record result is the (possibly updated) by-reference
`Hit_record` argument. -/
noncomputable def sphereHit (center : Point3) (radius : ℝ) (mat : Material)
    (r : Ray) (ray_t : Interval) (rec : Hit_record) : Bool × Hit_record :=
  let oc := center - r.orig
  let a := r.dir.length_squared
  let h := dot r.dir oc
  let c := oc.length_squared - radius * radius
  let discriminant := h * h - a * c
  if discriminant < 0 then (false, rec)
  else
    let sqrtd := Real.sqrt discriminant
    let root := (h - sqrtd) / a
    if ray_t.surrounds root then (true, sphereWrite center radius mat r root rec)
    else
      let root2 := (h + sqrtd) / a
      if ray_t.surrounds root2 then (true, sphereWrite center radius mat r root2 rec)
      else (false, rec)

mutual

/-- Virtual dispatch of `Hittable::hit` over the closed world of
implementations. -/
noncomputable def Hittable.hit : Hittable → Ray → Interval → Hit_record → Bool × Hit_record
  | .sphere center radius mat, r, ray_t, rec => sphereHit center radius mat r ray_t rec
  | .list objects, r, ray_t, rec =>
      hitList r ray_t.min objects default false ray_t.max rec

/-- The loop of `Hittable_list::hit`: iterate the members in insertion
order with accumulators `tmp` (the scratch record), `hitSomething`,
`closestSoFar` and the caller's record `rec`, querying each member with the
interval `(ray_t.min, closestSoFar)`. -/
noncomputable def hitList (r : Ray) (tmin : EReal) :
    List Hittable → Hit_record → Bool → EReal → Hit_record → Bool × Hit_record
  | [], _, hitSomething, _, rec => (hitSomething, rec)
  | o :: rest, tmp, hitSomething, closestSoFar, rec =>
      match Hittable.hit o r ⟨tmin, closestSoFar⟩ tmp with
      | (true, tmp') => hitList r tmin rest tmp' true (tmp'.t : EReal) tmp'
      | (false, tmp') => hitList r tmin rest tmp' hitSomething closestSoFar rec

end

/-- Scatter dispatch `Material::scatter` from `material.h`.  The C++
signature mutates `attenuation` and `scattered` by reference and returns a
bool; the model threads them explicitly.  `rand_hemisphere` stands for the
draw `Vec3::random_in_hemisphere(rec.normal)` consumed by the Lambertian
variant (an external entropy source). -/
noncomputable def Material.scatter (m : Material) (rand_hemisphere : Vec3) (_r_in : Ray)
    (rec : Hit_record) (attenuation : Color) (scattered : Ray) : Bool × Color × Ray :=
  match m with
  | .base => (false, attenuation, scattered)
  | .Constant color => (false, color, Ray.mk rec.p ⟨0, 0, 0⟩)
  | .ShowNormals _ => (false, (0.5 : ℝ) * (rec.normal + ⟨1, 1, 1⟩), Ray.mk rec.p ⟨0, 0, 0⟩)
  | .Lambertian albedo =>
      let scatter_direction := rec.normal + rand_hemisphere
      let scatter_direction := if scatter_direction.near_zero then rec.normal else scatter_direction
      (true, albedo, Ray.mk rec.p scatter_direction)

/-- The distance interval `Interval(0.0001, inf)` used by
`Camera::ray_color` for every scene query. -/
noncomputable def rcInterval : Interval := ⟨((0.0001 : ℝ) : EReal), ⊤⟩

/-- The background of `Camera::ray_color`: a vertical white-to-blue
gradient in the ray's unit direction. -/
noncomputable def background (r : Ray) : Color :=
  let unit_direction := unit_vector r.dir
  let t := 0.5 * (unit_direction.y + 1.0)
  (1.0 - t) * (⟨1.0, 1.0, 1.0⟩ : Vec3) + t * (⟨0.5, 0.7, 1.0⟩ : Vec3)

/-- `Camera::ray_color` from `camera.h`.  Depth counts down to the black
base case.  The material dispatch mirrors the code: a `dynamic_cast` test
for `Constant` (returning its color without calling `scatter`), then one
for `ShowNormals` (calling `scatter` on default-initialized locals and
returning the attenuation), then the general `scatter` call whose false
result falls through to the background gradient.  `η` supplies the
hemisphere draw for each recursion depth; the `n_rays` throughput counter
is a reporting side effect and is not part of the returned color. -/
noncomputable def ray_color (η : ℕ → Vec3) (world : Hittable) : Ray → ℕ → Color
  | _, 0 => ⟨0, 0, 0⟩
  | r, depth + 1 =>
    let res := world.hit r rcInterval default
    if res.1 then
      match res.2.mat_ptr with
      | some (.Constant color) => color
      | some (.ShowNormals albedo) =>
          (Material.scatter (.ShowNormals albedo) (η (depth + 1)) r res.2 default default).2.1
      | some m =>
          let s := Material.scatter m (η (depth + 1)) r res.2 default default
          if s.1 then
            if s.2.2.dir.length = 0 then s.2.1
            else s.2.1 * ray_color η world s.2.2 depth
          else background r
      | none => background r
    else background r

/-- The `Camera` state used by the rendering strategies; the derived
viewport quantities of `initialize()` appear as fields. -/
structure Camera where
  image_width : ℕ
  image_height : ℕ
  image_channels : ℕ
  samples_per_pixel : ℕ
  max_depth : ℕ
  camera_center : Point3
  pixel00_loc : Point3
  pixel_delta_u : Vec3
  pixel_delta_v : Vec3

/-- Byte index of the first channel of pixel `(x, y)` as computed in
`Camera::setPixel`: `(y * image_width + x) * image_channels`. -/
def pixelIndex (cam : Camera) (x y : ℕ) : ℕ :=
  (y * cam.image_width + x) * cam.image_channels

/-- The shared clamp `Interval intensity(0.0, 0.999)` of `Camera::setPixel`. -/
noncomputable def intensity : Interval := ⟨((0.0 : ℝ) : EReal), ((0.999 : ℝ) : EReal)⟩

/-- The C++ `static_cast<int>` on a double: truncation toward zero. -/
noncomputable def castInt (r : ℝ) : ℤ := if r < 0 then -⌊-r⌋ else ⌊r⌋

/-- One channel conversion of `Camera::setPixel`:
`static_cast<int>(intensity.clamp(v) * 256)`. -/
noncomputable def channelByte (v : ℝ) : ℤ := castInt ((intensity.clamp v).toReal * 256)

/-- The value actually stored in the `unsigned char` buffer cell: the int
reduced modulo 256 by the unsigned-char conversion. -/
noncomputable def storedByte (v : ℝ) : ℤ := (channelByte v).emod 256

/-- `Camera::setPixel`: writes the three channel bytes of pixel `(x, y)`
into the flat buffer (modelled as a function from byte index to value). -/
noncomputable def setPixel (cam : Camera) (image : ℕ → ℤ) (x y : ℕ) (c : Color) : ℕ → ℤ :=
  fun i =>
    if i = pixelIndex cam x y then storedByte c.x
    else if i = pixelIndex cam x y + 1 then storedByte c.y
    else if i = pixelIndex cam x y + 2 then storedByte c.z
    else image i

/-- `Camera::computePixelColor`: averages `samples_per_pixel` jittered
samples.  `ξ x y s` supplies the two `RndGen::random_double()` draws of
sample `s` of pixel `(x, y)` and `η x y s` its per-depth hemisphere draws,
making the sampling a per-pixel stream as in the claim's premise. -/
noncomputable def computePixelColor (cam : Camera) (scene : Hittable)
    (ξ : ℕ → ℕ → ℕ → ℝ × ℝ) (η : ℕ → ℕ → ℕ → ℕ → Vec3) (x y : ℕ) : Color :=
  let pixel_color := (List.range cam.samples_per_pixel).foldl (fun acc s =>
    let offset_x := (ξ x y s).1 - 0.5
    let offset_y := (ξ x y s).2 - 0.5
    let pixel_center := cam.pixel00_loc + ((x : ℝ) + offset_x) * cam.pixel_delta_u
        + ((y : ℝ) + offset_y) * cam.pixel_delta_v
    let ray_direction := pixel_center - cam.camera_center
    let ray : Ray := ⟨cam.camera_center, unit_vector ray_direction⟩
    acc + ray_color (η x y s) scene ray cam.max_depth) (⟨0, 0, 0⟩ : Color)
  pixel_color / (cam.samples_per_pixel : ℝ)

/-- One row of the per-pixel loop shared by both CPU strategies: for
`x = 0 .. image_width - 1`, store `computePixelColor` into the buffer. -/
noncomputable def renderRow (cam : Camera) (scene : Hittable)
    (ξ : ℕ → ℕ → ℕ → ℝ × ℝ) (η : ℕ → ℕ → ℕ → ℕ → Vec3) (y : ℕ) (image : ℕ → ℤ) : ℕ → ℤ :=
  (List.range cam.image_width).foldl
    (fun im x => setPixel cam im x y (computePixelColor cam scene ξ η x y)) image

/-- Rendering of a list of rows, in order. -/
noncomputable def renderRows (cam : Camera) (scene : Hittable)
    (ξ : ℕ → ℕ → ℕ → ℝ × ℝ) (η : ℕ → ℕ → ℕ → ℕ → Vec3) (rows : List ℕ) (image : ℕ → ℤ) : ℕ → ℤ :=
  rows.foldl (fun im y => renderRow cam scene ξ η y im) image

/-- `Camera::renderPixels`: sequential row-major traversal of all rows. -/
noncomputable def renderPixels (cam : Camera) (scene : Hittable)
    (ξ : ℕ → ℕ → ℕ → ℝ × ℝ) (η : ℕ → ℕ → ℕ → ℕ → Vec3) (image : ℕ → ℤ) : ℕ → ℤ :=
  renderRows cam scene ξ η (List.range cam.image_height) image

/-- The contiguous band of rows handled by worker `t` out of
`num_threads` in `Camera::renderPixelsParallel`: `start_y = t * chunk_size`
and the last thread absorbs the remainder rows. -/
def chunkRows (cam : Camera) (num_threads t : ℕ) : List ℕ :=
  let chunk_size := cam.image_height / num_threads
  List.range' (t * chunk_size)
    (if t = num_threads - 1 then cam.image_height - t * chunk_size else chunk_size)

/-- `Camera::renderPixelsParallel`: each worker renders its band with the
identical per-pixel math; the workers write disjoint buffer regions, so
the final buffer is the bands' writes applied in any completion order
`order` (a permutation of the thread indices). -/
noncomputable def renderPixelsParallel (cam : Camera) (scene : Hittable)
    (ξ : ℕ → ℕ → ℕ → ℝ × ℝ) (η : ℕ → ℕ → ℕ → ℕ → Vec3) (num_threads : ℕ)
    (order : List ℕ) (image : ℕ → ℤ) : ℕ → ℤ :=
  order.foldl (fun im t => renderRows cam scene ξ η (chunkRows cam num_threads t) im) image

/-- Modelled from the source `camera_cuda.cu`: the `renderKernel` template
writes a random color per pixel and traces no rays at all, so the number
of rays traced by the kernel is zero. -/
def renderKernelRaysTraced (_width _height _samples_per_pixel _max_depth : ℕ) : ℕ := 0

/-- Control flow of the host function `renderPixelsCUDA` in
`camera_cuda.cu`.  The booleans are the success/failure outcomes of the
device-side operations (`cudaMalloc` twice, random-state init, kernel
launch, `cudaMemcpy`); the returned value follows the code: `0` on any
failure path and the constant `1` on success. -/
def renderPixelsCUDA_host (_width _height _samples_per_pixel _max_depth : ℕ)
    (malloc1_ok malloc2_ok init_ok kernel_ok copy_ok : Bool) : ℕ :=
  if ¬(malloc1_ok ∧ malloc2_ok) then 0
  else if ¬init_ok then 0
  else if ¬kernel_ok then 0
  else if ¬copy_ok then 0
  else 1

/-- `Camera::renderPixelsCUDA` in `camera.h` folds the returned value into
the atomic `n_rays` counter unconditionally; it performs no check of the
returned value before the buffer is used. -/
def cameraFoldCudaRays (n_rays cuda_ray_count : ℕ) : ℕ := n_rays + cuda_ray_count

/-- Quadratic coefficient `a = d · d` as written in the claim. -/
noncomputable def sphereA (r : Ray) : ℝ := dot r.dir r.dir

/-- Quadratic half-coefficient `h = d · (center − origin)` as written in
the claim. -/
noncomputable def sphereH (center : Point3) (r : Ray) : ℝ := dot r.dir (center - r.orig)

/-- Quadratic coefficient `c = |center − origin|² − r²` as written in the
claim. -/
noncomputable def sphereC (center : Point3) (radius : ℝ) (r : Ray) : ℝ :=
  (center - r.orig).length_squared - radius ^ 2

/-- Discriminant `h² − a·c` as written in the claim. -/
noncomputable def sphereDisc (center : Point3) (radius : ℝ) (r : Ray) : ℝ :=
  sphereH center r ^ 2 - sphereA r * sphereC center radius r

/-- The root `(h − √disc)/a` evaluated first by `Sphere::hit`. -/
noncomputable def sphereRootSmall (center : Point3) (radius : ℝ) (r : Ray) : ℝ :=
  (sphereH center r - Real.sqrt (sphereDisc center radius r)) / sphereA r

/-- The root `(h + √disc)/a` evaluated second by `Sphere::hit`. -/
noncomputable def sphereRootLarge (center : Point3) (radius : ℝ) (r : Ray) : ℝ :=
  (sphereH center r + Real.sqrt (sphereDisc center radius r)) / sphereA r

/-- A member "reports an intersection inside the interval": its `hit`
returns true when queried with that interval (on a default scratch
record; the boolean is independent of the record passed in). -/
noncomputable def reports (ob : Hittable) (r : Ray) (ivl : Interval) : Bool :=
  (ob.hit r ivl default).1

/-- The distance reported by a member queried alone with the interval. -/
noncomputable def reportT (ob : Hittable) (r : Ray) (ivl : Interval) : ℝ :=
  (ob.hit r ivl default).2.t

/-- Interval soundness of a hittable: an accepted hit distance lies
strictly inside the query interval. -/
def SoundHit (ob : Hittable) : Prop :=
  ∀ (r : Ray) (ivl : Interval) (rc : Hit_record),
    (ob.hit r ivl rc).1 = true → ivl.surrounds ((ob.hit r ivl rc).2.t)

/-- Relation between a query on a narrowed interval `(mn, c)` and on a
wider interval `(mn, mx)` with `c ≤ mx`: a narrow accept is a wide accept
at the same distance, and a narrow reject means the wide query either
rejects too or accepts at distance at least `c`. -/
def NarrowHit (ob : Hittable) : Prop :=
  ∀ (r : Ray) (mn c mx : EReal) (recN recW : Hit_record), c ≤ mx →
    ((ob.hit r ⟨mn, c⟩ recN).1 = true →
      (ob.hit r ⟨mn, mx⟩ recW).1 = true ∧
      (ob.hit r ⟨mn, c⟩ recN).2.t = (ob.hit r ⟨mn, mx⟩ recW).2.t) ∧
    ((ob.hit r ⟨mn, c⟩ recN).1 = false →
      (ob.hit r ⟨mn, mx⟩ recW).1 = false ∨
      ((ob.hit r ⟨mn, mx⟩ recW).1 = true ∧ c ≤ ((ob.hit r ⟨mn, mx⟩ recW).2.t : EReal)))

/-- Channel selector for the three bytes written by `setPixel`. -/
noncomputable def channelVal (c : Color) : ℕ → ℝ
  | 0 => c.x
  | 1 => c.y
  | _ => c.z

/-- A concrete test ray along the negative z axis, starting at height `z`. -/
noncomputable def rayAxis (z : ℝ) : Ray := ⟨⟨0, 0, z⟩, ⟨0, 0, -1⟩⟩

/-- A concrete unit sphere on the z axis. -/
noncomputable def unitSphereAt (z : ℝ) (m : Material) : Hittable := .sphere ⟨0, 0, z⟩ 1 m

theorem length_squared_eq_dot (v : Vec3) : v.length_squared = dot v v := rfl

theorem length_squared_nonneg (v : Vec3) : 0 ≤ v.length_squared := by
  unfold Vec3.length_squared
  nlinarith [sq_nonneg v.x, sq_nonneg v.y, sq_nonneg v.z]

theorem hit_sphere_def (center : Point3) (radius : ℝ) (mat : Material) (r : Ray)
    (ray_t : Interval) (rc : Hit_record) :
    Hittable.hit (.sphere center radius mat) r ray_t rc = sphereHit center radius mat r ray_t rc := by
  simp [Hittable.hit]

theorem hit_list_def (objs : List Hittable) (r : Ray) (ray_t : Interval) (rc : Hit_record) :
    Hittable.hit (.list objs) r ray_t rc = hitList r ray_t.min objs default false ray_t.max rc := by
  simp [Hittable.hit]

theorem sphereHit_eq (center : Point3) (radius : ℝ) (mat : Material)
    (r : Ray) (ray_t : Interval) (rc : Hit_record) :
    sphereHit center radius mat r ray_t rc =
      if sphereDisc center radius r < 0 then (false, rc)
      else if ray_t.surrounds (sphereRootSmall center radius r) then
        (true, sphereWrite center radius mat r (sphereRootSmall center radius r) rc)
      else if ray_t.surrounds (sphereRootLarge center radius r) then
        (true, sphereWrite center radius mat r (sphereRootLarge center radius r) rc)
      else (false, rc) := by
  unfold sphereHit sphereRootSmall sphereRootLarge sphereDisc sphereA sphereH sphereC
  simp only [Vec3.length_squared, dot, pow_two]

/-- C3: `Sphere::hit` computes the coefficients `a = d·d`,
`h = d·(center−origin)`, `c = |center−origin|²−r²` and the discriminant
`h²−a·c`; a negative discriminant reports no hit, otherwise the root
`(h−√disc)/a` is evaluated first, the root `(h+√disc)/a` is tried only
when the first falls outside the caller-supplied interval (strict
`surrounds` test), and no hit is reported when both fall outside. -/
theorem sphere_hit_quadratic_characterization (center : Point3) (radius : ℝ) (mat : Material)
    (r : Ray) (ray_t : Interval) (rc : Hit_record) :
    Hittable.hit (.sphere center radius mat) r ray_t rc =
      if sphereDisc center radius r < 0 then (false, rc)
      else if ray_t.surrounds (sphereRootSmall center radius r) then
        (true, sphereWrite center radius mat r (sphereRootSmall center radius r) rc)
      else if ray_t.surrounds (sphereRootLarge center radius r) then
        (true, sphereWrite center radius mat r (sphereRootLarge center radius r) rc)
      else (false, rc) := by
  rw [hit_sphere_def, sphereHit_eq]

theorem hitList_isHit_of_hs (r : Ray) (tmin : EReal) :
    ∀ (objs : List Hittable) (tmp : Hit_record) (closest : EReal) (rc : Hit_record),
      (hitList r tmin objs tmp true closest rc).1 = true := by
  intro objs
  induction objs with
  | nil => intro tmp closest rc; rfl
  | cons o rest ih =>
    intro tmp closest rc
    rw [hitList]
    rcases hres : Hittable.hit o r ⟨tmin, closest⟩ tmp with ⟨b, tmp'⟩
    cases b <;> simp [ih]

theorem hitList_unchanged (r : Ray) (tmin : EReal) :
    ∀ (objs : List Hittable) (tmp : Hit_record) (closest : EReal) (rc : Hit_record),
      (hitList r tmin objs tmp false closest rc).1 = false →
      (hitList r tmin objs tmp false closest rc).2 = rc := by
  intro objs
  induction objs with
  | nil => intro tmp closest rc _; rfl
  | cons o rest ih =>
    intro tmp closest rc hfalse
    rw [hitList] at hfalse ⊢
    rcases hres : Hittable.hit o r ⟨tmin, closest⟩ tmp with ⟨b, tmp'⟩
    cases b
    · simp only [hres] at hfalse ⊢
      exact ih tmp' closest rc hfalse
    · simp only [hres] at hfalse
      rw [hitList_isHit_of_hs] at hfalse
      exact absurd hfalse (by simp)

/-- C9: whenever `hit` returns false, the caller-supplied hit record is
returned unchanged — `Sphere::hit` writes the record only after accepting
a root, and `Hittable_list::hit` assigns the caller's record only from an
accepted child hit. -/
theorem hit_false_leaves_record (ob : Hittable) (r : Ray) (ivl : Interval) (rc : Hit_record)
    (h : (ob.hit r ivl rc).1 = false) : (ob.hit r ivl rc).2 = rc := by
  cases ob with
  | sphere center radius mat =>
    rw [hit_sphere_def, sphereHit_eq] at h ⊢
    repeat' split at h
    all_goals repeat' split
    all_goals simp_all
  | list objs =>
    rw [hit_list_def] at h ⊢
    exact hitList_unchanged r ivl.min objs default ivl.max rc h

theorem base_decomp {W : ℕ} (y x : ℕ) (hx : x < W) :
    (y * W + x) / W = y ∧ (y * W + x) % W = x := by
  have hW : 0 < W := by omega
  constructor
  · rw [Nat.add_comm, Nat.add_mul_div_right x y hW, Nat.div_eq_of_lt hx]; omega
  · rw [Nat.add_comm, Nat.add_mul_mod_self_right, Nat.mod_eq_of_lt hx]

theorem base_inj {W x x' y y' : ℕ} (hx : x < W) (hx' : x' < W)
    (h : y * W + x = y' * W + x') : y = y' ∧ x = x' := by
  have h1 := base_decomp y x hx
  have h2 := base_decomp y' x' hx'
  rw [h] at h1
  exact ⟨h1.1.symm.trans h2.1, h1.2.symm.trans h2.2⟩

/-- C10: `setPixel(image, x, y, c)` modifies exactly the three buffer
cells at indices `(y*image_width+x)*image_channels` through `+2`, leaving
every other cell unchanged, and (for in-range `x` and at least three
channels) distinct pixels write disjoint index ranges. -/
theorem setPixel_frame (cam : Camera) (image : ℕ → ℤ) (x y : ℕ) (c : Color) :
    (∀ i, i ≠ pixelIndex cam x y → i ≠ pixelIndex cam x y + 1 → i ≠ pixelIndex cam x y + 2 →
      setPixel cam image x y c i = image i) ∧
    setPixel cam image x y c (pixelIndex cam x y) = storedByte c.x ∧
    setPixel cam image x y c (pixelIndex cam x y + 1) = storedByte c.y ∧
    setPixel cam image x y c (pixelIndex cam x y + 2) = storedByte c.z ∧
    (∀ x' y', x < cam.image_width → x' < cam.image_width → 3 ≤ cam.image_channels →
      (x, y) ≠ (x', y') → ∀ j j', j < 3 → j' < 3 →
      pixelIndex cam x y + j ≠ pixelIndex cam x' y' + j') := by
  refine ⟨?_, ?_, ?_, ?_, ?_⟩
  · intro i h1 h2 h3
    simp [setPixel, h1, h2, h3]
  · simp [setPixel]
  · simp [setPixel]
  · simp [setPixel]
  · intro x' y' hx hx' hC hne j j' hj hj' heq
    unfold pixelIndex at heq
    have hjC : j < cam.image_channels := lt_of_lt_of_le hj hC
    have hj'C : j' < cam.image_channels := lt_of_lt_of_le hj' hC
    have h1 := base_inj hjC hj'C heq
    have h2 := base_inj hx hx' h1.1
    exact hne (by simp [h2.1, h2.2])

theorem intensity_clamp_toReal (v : ℝ) :
    (intensity.clamp v).toReal = Max.max 0 (Min.min v 0.999) := by
  unfold intensity Interval.clamp
  rw [← EReal.coe_strictMono.monotone.map_min, ← EReal.coe_strictMono.monotone.map_max,
    EReal.toReal_coe]
  norm_num

theorem channelByte_eq_floor (v : ℝ) :
    channelByte v = ⌊Max.max 0 (Min.min v 0.999) * 256⌋ := by
  unfold channelByte castInt
  rw [intensity_clamp_toReal]
  have h0 : (0 : ℝ) ≤ Max.max 0 (Min.min v 0.999) * 256 := by
    have : (0 : ℝ) ≤ Max.max 0 (Min.min v 0.999) := le_max_left _ _
    nlinarith
  rw [if_neg (not_lt.mpr h0)]

theorem channelByte_bounds (v : ℝ) : 0 ≤ channelByte v ∧ channelByte v < 256 := by
  rw [channelByte_eq_floor]
  constructor
  · exact Int.floor_nonneg.mpr (by positivity)
  · apply Int.floor_lt.mpr
    have h1 : Min.min v 0.999 ≤ 0.999 := min_le_right _ _
    have h2 : Max.max 0 (Min.min v 0.999) ≤ 0.999 := by
      apply max_le (by norm_num) h1
    push_cast
    nlinarith

/-- C7: each byte stored by `setPixel` equals the channel value clamped
to `[0, 0.999]`, scaled by 256 and truncated to an integer (truncation
coincides with the floor since the clamped value is non-negative); the
result always lies in `[0, 255]`, never reaching 256, so the conversion
to `unsigned char` does not wrap. -/
theorem setPixel_byte_range (v : ℝ) :
    storedByte v = channelByte v ∧
    channelByte v = ⌊Max.max 0 (Min.min v 0.999) * 256⌋ ∧
    0 ≤ storedByte v ∧ storedByte v ≤ 255 := by
  have hb := channelByte_bounds v
  have hmod : (channelByte v).emod 256 = channelByte v := Int.emod_eq_of_lt hb.1 hb.2
  refine ⟨hmod, channelByte_eq_floor v, ?_, ?_⟩
  · unfold storedByte; rw [hmod]; exact hb.1
  · unfold storedByte; rw [hmod]; omega

/-- C6: the hardware-parallel boundary function does not return a ray
count: on every success path it returns the constant 1 regardless of
image size, sample count or depth (while the template kernel traces zero
rays), it returns 0 on the failure paths, and `Camera::renderPixelsCUDA`
folds the returned value into `n_rays` unconditionally, with no check
distinguishing the failure sentinel before the buffer is used. -/
theorem renderPixelsCUDA_return_behavior :
    (∀ w h s d, renderPixelsCUDA_host w h s d true true true true true = 1 ∧
      renderKernelRaysTraced w h s d = 0) ∧
    (∀ w h s d m2 i k c, renderPixelsCUDA_host w h s d false m2 i k c = 0) ∧
    (∀ w h s d m1 m2 i c, renderPixelsCUDA_host w h s d m1 m2 i false c = 0) ∧
    (∀ n v, cameraFoldCudaRays n v = n + v) := by
  refine ⟨fun w h s d => ⟨rfl, rfl⟩, fun w h s d m2 i k c => rfl, ?_, fun n v => rfl⟩
  intro w h s d m1 m2 i c
  unfold renderPixelsCUDA_host
  cases m1 <;> cases m2 <;> cases i <;> simp

theorem vec_mk_sub (a1 a2 a3 b1 b2 b3 : ℝ) :
    ((⟨a1, a2, a3⟩ : Vec3) - ⟨b1, b2, b3⟩) = ⟨a1 - b1, a2 - b2, a3 - b3⟩ := rfl

theorem vec_mk_add (a1 a2 a3 b1 b2 b3 : ℝ) :
    ((⟨a1, a2, a3⟩ : Vec3) + ⟨b1, b2, b3⟩) = ⟨a1 + b1, a2 + b2, a3 + b3⟩ := rfl

theorem vec_mk_smul (t a1 a2 a3 : ℝ) :
    (t * (⟨a1, a2, a3⟩ : Vec3)) = (⟨t * a1, t * a2, t * a3⟩ : Vec3) := rfl

theorem vec_mk_divScalar (a1 a2 a3 t : ℝ) :
    ((⟨a1, a2, a3⟩ : Vec3) / t) = (⟨a1 / t, a2 / t, a3 / t⟩ : Vec3) := rfl

theorem dot_mk (a1 a2 a3 b1 b2 b3 : ℝ) :
    dot ⟨a1, a2, a3⟩ ⟨b1, b2, b3⟩ = a1 * b1 + a2 * b2 + a3 * b3 := rfl

theorem length_squared_mk (a1 a2 a3 : ℝ) :
    Vec3.length_squared ⟨a1, a2, a3⟩ = a1 * a1 + a2 * a2 + a3 * a3 := rfl

theorem sphereA_axis (_zc z0 : ℝ) : sphereA (rayAxis z0) = 1 := by
  unfold sphereA rayAxis
  rw [dot_mk]; ring

theorem sphereH_axis (zc z0 : ℝ) : sphereH ⟨0, 0, zc⟩ (rayAxis z0) = z0 - zc := by
  unfold sphereH rayAxis
  rw [vec_mk_sub, dot_mk]; ring

theorem sphereDisc_axis (zc z0 : ℝ) : sphereDisc ⟨0, 0, zc⟩ 1 (rayAxis z0) = 1 := by
  unfold sphereDisc sphereA sphereH sphereC rayAxis
  rw [vec_mk_sub, dot_mk, dot_mk, length_squared_mk]; ring

theorem sphereRootSmall_axis (zc z0 : ℝ) :
    sphereRootSmall ⟨0, 0, zc⟩ 1 (rayAxis z0) = z0 - zc - 1 := by
  unfold sphereRootSmall
  rw [sphereDisc_axis, sphereA_axis zc, sphereH_axis, Real.sqrt_one]
  ring

theorem sphereRootLarge_axis (zc z0 : ℝ) :
    sphereRootLarge ⟨0, 0, zc⟩ 1 (rayAxis z0) = z0 - zc + 1 := by
  unfold sphereRootLarge
  rw [sphereDisc_axis, sphereA_axis zc, sphereH_axis, Real.sqrt_one]
  ring

theorem surrounds_rc {t : ℝ} (h : 0.0001 < t) : rcInterval.surrounds t :=
  ⟨EReal.coe_lt_coe_iff.mpr h, EReal.coe_lt_top t⟩

theorem not_surrounds_rc {t : ℝ} (h : t ≤ 0.0001) : ¬ rcInterval.surrounds t := by
  intro hc
  exact absurd (EReal.coe_lt_coe_iff.mp hc.1) (not_lt.mpr h)

theorem hit_axis_small (zc z0 : ℝ) (m : Material) (rc : Hit_record)
    (h : 0.0001 < z0 - zc - 1) :
    Hittable.hit (unitSphereAt zc m) (rayAxis z0) rcInterval rc =
      (true, sphereWrite ⟨0, 0, zc⟩ 1 m (rayAxis z0) (z0 - zc - 1) rc) := by
  unfold unitSphereAt
  rw [hit_sphere_def, sphereHit_eq, sphereDisc_axis, sphereRootSmall_axis]
  rw [if_neg (by norm_num), if_pos (surrounds_rc h)]

theorem hit_axis_large (zc z0 : ℝ) (m : Material) (rc : Hit_record)
    (h1 : z0 - zc - 1 ≤ 0.0001) (h2 : 0.0001 < z0 - zc + 1) :
    Hittable.hit (unitSphereAt zc m) (rayAxis z0) rcInterval rc =
      (true, sphereWrite ⟨0, 0, zc⟩ 1 m (rayAxis z0) (z0 - zc + 1) rc) := by
  unfold unitSphereAt
  rw [hit_sphere_def, sphereHit_eq, sphereDisc_axis, sphereRootSmall_axis, sphereRootLarge_axis]
  rw [if_neg (by norm_num), if_neg (not_surrounds_rc h1), if_pos (surrounds_rc h2)]

theorem hit_miss_example (m : Material) (rc : Hit_record) (ivl : Interval) :
    Hittable.hit (.sphere ⟨5, 0, 0⟩ 1 m) (rayAxis 3) ivl rc = (false, rc) := by
  rw [hit_sphere_def, sphereHit_eq]
  have hd : sphereDisc ⟨5, 0, 0⟩ 1 (rayAxis 3) = -24 := by
    unfold sphereDisc sphereA sphereH sphereC rayAxis
    rw [vec_mk_sub, dot_mk, dot_mk, length_squared_mk]; ring
  rw [hd, if_pos (by norm_num)]

theorem vec_sub_x (a b : Vec3) : (a - b).x = a.x - b.x := rfl

theorem vec_sub_y (a b : Vec3) : (a - b).y = a.y - b.y := rfl

theorem vec_sub_z (a b : Vec3) : (a - b).z = a.z - b.z := rfl

theorem vec_add_x (a b : Vec3) : (a + b).x = a.x + b.x := rfl

theorem vec_add_y (a b : Vec3) : (a + b).y = a.y + b.y := rfl

theorem vec_add_z (a b : Vec3) : (a + b).z = a.z + b.z := rfl

theorem vec_smul_x (t : ℝ) (v : Vec3) : (t * v).x = t * v.x := rfl

theorem vec_smul_y (t : ℝ) (v : Vec3) : (t * v).y = t * v.y := rfl

theorem vec_smul_z (t : ℝ) (v : Vec3) : (t * v).z = t * v.z := rfl

theorem vec_div_x (v : Vec3) (t : ℝ) : (v / t).x = v.x / t := rfl

theorem vec_div_y (v : Vec3) (t : ℝ) : (v / t).y = v.y / t := rfl

theorem vec_div_z (v : Vec3) (t : ℝ) : (v / t).z = v.z / t := rfl

theorem at_sub_center_sq (center : Point3) (r : Ray) (t : ℝ) :
    (r.at t - center).length_squared =
      t * t * dot r.dir r.dir - 2 * t * dot r.dir (center - r.orig)
        + (center - r.orig).length_squared := by
  unfold Ray.at Vec3.length_squared dot
  simp only [vec_sub_x, vec_sub_y, vec_sub_z, vec_add_x, vec_add_y, vec_add_z,
    vec_smul_x, vec_smul_y, vec_smul_z]
  ring

theorem div_length_squared (v : Vec3) (t : ℝ) :
    (v / t).length_squared = v.length_squared / (t * t) := by
  unfold Vec3.length_squared
  simp only [vec_div_x, vec_div_y, vec_div_z]
  field_simp

theorem sphere_root_on_sphere (center : Point3) (radius : ℝ) (r : Ray) (s : ℝ)
    (ha : sphereA r ≠ 0)
    (hs : s * s = sphereH center r * sphereH center r
      - sphereA r * ((center - r.orig).length_squared - radius * radius)) :
    (r.at ((sphereH center r + s) / sphereA r) - center).length_squared = radius * radius := by
  rw [at_sub_center_sq]
  have hA : dot r.dir r.dir = sphereA r := rfl
  have hH : dot r.dir (center - r.orig) = sphereH center r := rfl
  rw [hA, hH]
  field_simp
  linear_combination sphereA r * sphereA r * hs

theorem sphereWrite_normal_length (center : Point3) (radius : ℝ) (mat : Material)
    (r : Ray) (root : ℝ) (rc : Hit_record)
    (hsq : (r.at root - center).length_squared = radius * radius) (hrad : radius ≠ 0) :
    (sphereWrite center radius mat r root rc).normal.length = 1 := by
  unfold sphereWrite Vec3.length
  dsimp only
  rw [div_length_squared, hsq, div_self (mul_ne_zero hrad hrad), Real.sqrt_one]

theorem sphereRootSmall_as_plus (center : Point3) (radius : ℝ) (r : Ray) :
    sphereRootSmall center radius r =
      (sphereH center r + -Real.sqrt (sphereDisc center radius r)) / sphereA r := by
  unfold sphereRootSmall
  ring_nf

theorem sphereRootLarge_as_plus (center : Point3) (radius : ℝ) (r : Ray) :
    sphereRootLarge center radius r =
      (sphereH center r + Real.sqrt (sphereDisc center radius r)) / sphereA r := rfl

theorem sqrt_disc_sq (center : Point3) (radius : ℝ) (r : Ray)
    (hd : 0 ≤ sphereDisc center radius r) :
    Real.sqrt (sphereDisc center radius r) * Real.sqrt (sphereDisc center radius r) =
      sphereH center r * sphereH center r
        - sphereA r * ((center - r.orig).length_squared - radius * radius) := by
  rw [Real.mul_self_sqrt hd]
  unfold sphereDisc sphereC
  ring

/-- C1 (amended): on acceptance `Sphere::hit` populates the record with
the hit point, the distance, the raw outward normal `(point−center)/radius`
(of unit length when the quadratic is nondegenerate and the radius is
positive) and the sphere's material reference; it does not call
`set_face_normal`: the front-facing flag is left at its previous value and
the normal is not reoriented against the incoming ray. -/
theorem sphere_hit_record_population (center : Point3) (radius : ℝ) (mat : Material)
    (r : Ray) (ivl : Interval) (rc : Hit_record)
    (hacc : (Hittable.hit (.sphere center radius mat) r ivl rc).1 = true) :
    (Hittable.hit (.sphere center radius mat) r ivl rc).2.p
        = r.at (Hittable.hit (.sphere center radius mat) r ivl rc).2.t ∧
    (Hittable.hit (.sphere center radius mat) r ivl rc).2.normal
        = ((Hittable.hit (.sphere center radius mat) r ivl rc).2.p - center) / radius ∧
    (Hittable.hit (.sphere center radius mat) r ivl rc).2.mat_ptr = some mat ∧
    (Hittable.hit (.sphere center radius mat) r ivl rc).2.frontFacing = rc.frontFacing ∧
    (sphereA r ≠ 0 → 0 < radius →
      (Hittable.hit (.sphere center radius mat) r ivl rc).2.normal.length = 1) := by
  rw [hit_sphere_def, sphereHit_eq] at hacc ⊢
  by_cases hd : sphereDisc center radius r < 0
  · rw [if_pos hd] at hacc; exact absurd hacc (by simp)
  · rw [if_neg hd] at hacc ⊢
    have hd' : 0 ≤ sphereDisc center radius r := not_lt.mp hd
    by_cases h1 : ivl.surrounds (sphereRootSmall center radius r)
    · rw [if_pos h1]
      refine ⟨rfl, rfl, rfl, rfl, ?_⟩
      intro ha hrad
      apply sphereWrite_normal_length
      · rw [sphereRootSmall_as_plus]
        apply sphere_root_on_sphere center radius r _ ha
        rw [neg_mul_neg]
        exact sqrt_disc_sq center radius r hd'
      · exact ne_of_gt hrad
    · rw [if_neg h1] at hacc ⊢
      by_cases h2 : ivl.surrounds (sphereRootLarge center radius r)
      · rw [if_pos h2]
        refine ⟨rfl, rfl, rfl, rfl, ?_⟩
        intro ha hrad
        apply sphereWrite_normal_length
        · rw [sphereRootLarge_as_plus]
          apply sphere_root_on_sphere center radius r _ ha
          exact sqrt_disc_sq center radius r hd'
        · exact ne_of_gt hrad
      · rw [if_neg h2] at hacc; exact absurd hacc (by simp)

/-- C1 witness: a head-on ray accepted by the unit sphere at the origin
receives a record carrying the sphere's material, a unit-length normal
and an untouched front-facing flag. -/
theorem sphere_hit_record_population_witness :
    (Hittable.hit (.sphere ⟨0, 0, 0⟩ 1 .base) (rayAxis 3) rcInterval default).2.mat_ptr
        = some Material.base ∧
    (Hittable.hit (.sphere ⟨0, 0, 0⟩ 1 .base) (rayAxis 3) rcInterval default).2.normal.length = 1 ∧
    (Hittable.hit (.sphere ⟨0, 0, 0⟩ 1 .base) (rayAxis 3) rcInterval default).2.frontFacing
        = false := by
  have hacc : (Hittable.hit (.sphere ⟨0, 0, 0⟩ 1 .base) (rayAxis 3) rcInterval default).1
      = true := by
    have heq := hit_axis_small 0 3 .base default (by norm_num)
    unfold unitSphereAt at heq
    rw [heq]
  have happ := sphere_hit_record_population ⟨0, 0, 0⟩ 1 .base (rayAxis 3) rcInterval default hacc
  refine ⟨happ.2.2.1, happ.2.2.2.2 ?_ (by norm_num), ?_⟩
  · unfold sphereA rayAxis
    rw [dot_mk]; norm_num
  · rw [happ.2.2.2.1]; rfl

/-- C1 counterexample: for a ray starting at the center of the sphere the
accepted record's normal points along the incoming ray (their dot product
is 1 &gt; 0), not against it, and the stale front-facing flag passed in
(true) is left in place even though `set_face_normal` would compute
false here: the claimed orientation of the normal and computation of the
front-facing flag do not happen. -/
theorem sphere_hit_normal_orientation_cex :
    (Hittable.hit (.sphere ⟨0, 0, 0⟩ 1 .base) (rayAxis 0) rcInterval
        ⟨default, default, 0, true, none⟩).1 = true ∧
    dot (rayAxis 0).dir
      (Hittable.hit (.sphere ⟨0, 0, 0⟩ 1 .base) (rayAxis 0) rcInterval
        ⟨default, default, 0, true, none⟩).2.normal = 1 ∧
    (Hittable.hit (.sphere ⟨0, 0, 0⟩ 1 .base) (rayAxis 0) rcInterval
        ⟨default, default, 0, true, none⟩).2.frontFacing = true := by
  have heq := hit_axis_large 0 0 .base ⟨default, default, 0, true, none⟩
    (by norm_num) (by norm_num)
  unfold unitSphereAt at heq
  rw [heq]
  refine ⟨rfl, ?_, rfl⟩
  unfold sphereWrite Ray.at rayAxis
  dsimp only
  rw [vec_mk_smul, vec_mk_add, vec_mk_sub, vec_mk_divScalar, dot_mk]
  norm_num

theorem background_rayAxis (z : ℝ) : background (rayAxis z) = ⟨0.75, 0.85, 1.0⟩ := by
  unfold background unit_vector Vec3.length rayAxis
  dsimp only
  rw [length_squared_mk]
  have h1 : ((0:ℝ) * 0 + 0 * 0 + -1 * -1) = 1 := by norm_num
  rw [h1, Real.sqrt_one, vec_mk_divScalar]
  rw [vec_mk_smul, vec_mk_smul, vec_mk_add]
  norm_num

/-- C5 (amended): for a hit at depth at least 1 whose material is the
`Constant` or `ShowNormals` variant, the material's `scatter` reports "do
not continue" and `ray_color` returns that scatter's attenuation color
directly, without recursing; this does not extend to every
non-continuing variant: for the concrete base `Material`, whose `scatter`
also returns false, `ray_color` falls through to the background gradient
instead (see the counterexample). -/
theorem ray_color_noncontinue_attenuation (η : ℕ → Vec3) (world : Hittable) (r : Ray)
    (d : ℕ) (rec : Hit_record) (m : Material)
    (hhit : world.hit r rcInterval default = (true, rec))
    (hmat : rec.mat_ptr = some m)
    (hvariant : (∃ c, m = .Constant c) ∨ (∃ a, m = .ShowNormals a)) :
    (∀ rand att sc, (m.scatter rand r rec att sc).1 = false) ∧
    ray_color η world r (d + 1) = (m.scatter (η (d + 1)) r rec default default).2.1 := by
  rcases hvariant with ⟨c, rfl⟩ | ⟨a, rfl⟩
  · exact ⟨fun rand att sc => rfl, by rw [ray_color]; simp [hhit, hmat, Material.scatter]⟩
  · exact ⟨fun rand att sc => rfl, by rw [ray_color]; simp [hhit, hmat]⟩

/-- C5 witness: a Constant red sphere hit head-on at depth 1 yields pure
red, the scatter attenuation, directly. -/
theorem ray_color_noncontinue_attenuation_witness :
    ray_color (fun _ => ⟨0, 0, 0⟩) (.sphere ⟨0, 0, 0⟩ 1 (.Constant ⟨1, 0, 0⟩)) (rayAxis 3) 1
      = ⟨1, 0, 0⟩ := by
  have hhit := hit_axis_small 0 3 (.Constant ⟨1, 0, 0⟩) default (by norm_num)
  unfold unitSphereAt at hhit
  have happ := ray_color_noncontinue_attenuation (fun _ => ⟨0, 0, 0⟩)
    (.sphere ⟨0, 0, 0⟩ 1 (.Constant ⟨1, 0, 0⟩)) (rayAxis 3) 0
    (sphereWrite ⟨0, 0, 0⟩ 1 (.Constant ⟨1, 0, 0⟩) (rayAxis 3) (3 - 0 - 1) default)
    (.Constant ⟨1, 0, 0⟩) hhit rfl (Or.inl ⟨⟨1, 0, 0⟩, rfl⟩)
  rw [happ.2]
  rfl

/-- C5 counterexample: a sphere carrying the concrete base `Material`
(whose `scatter` reports "do not continue" with its attenuation argument
left untouched) makes `ray_color` at depth 1 return the background
gradient value (0.75, 0.85, 1), not the scatter's attenuation (0, 0, 0). -/
theorem ray_color_base_material_cex :
    (Material.base.scatter ⟨0, 0, 0⟩ (rayAxis 3)
        (Hittable.hit (.sphere ⟨0, 0, 0⟩ 1 .base) (rayAxis 3) rcInterval default).2
        default default).1 = false ∧
    (Material.base.scatter ⟨0, 0, 0⟩ (rayAxis 3)
        (Hittable.hit (.sphere ⟨0, 0, 0⟩ 1 .base) (rayAxis 3) rcInterval default).2
        default default).2.1 = (⟨0, 0, 0⟩ : Color) ∧
    ray_color (fun _ => ⟨0, 0, 0⟩) (.sphere ⟨0, 0, 0⟩ 1 .base) (rayAxis 3) 1
      = (⟨0.75, 0.85, 1.0⟩ : Color) ∧
    (⟨0.75, 0.85, 1.0⟩ : Color) ≠ (⟨0, 0, 0⟩ : Color) := by
  have hhit := hit_axis_small 0 3 Material.base default (by norm_num)
  unfold unitSphereAt at hhit
  refine ⟨rfl, rfl, ?_, ?_⟩
  · show ray_color (fun _ => (⟨0, 0, 0⟩ : Vec3)) (.sphere ⟨0, 0, 0⟩ 1 .base) (rayAxis 3) (0 + 1)
        = (⟨0.75, 0.85, 1.0⟩ : Color)
    rw [ray_color]
    simp only [hhit]
    simp [sphereWrite, Material.scatter, background_rayAxis]
  · intro h
    rw [Vec3.mk.injEq] at h
    norm_num at h

theorem sphere_soundHit (center : Point3) (radius : ℝ) (mat : Material) :
    SoundHit (.sphere center radius mat) := by
  intro r ivl rc hacc
  rw [hit_sphere_def, sphereHit_eq] at hacc ⊢
  by_cases hd : sphereDisc center radius r < 0
  · rw [if_pos hd] at hacc; exact absurd hacc (by simp)
  · rw [if_neg hd] at hacc ⊢
    by_cases h1 : ivl.surrounds (sphereRootSmall center radius r)
    · rw [if_pos h1]; exact h1
    · rw [if_neg h1] at hacc ⊢
      by_cases h2 : ivl.surrounds (sphereRootLarge center radius r)
      · rw [if_pos h2]; exact h2
      · rw [if_neg h2] at hacc; exact absurd hacc (by simp)

theorem hitList_surrounds_aux (r : Ray) (mn mx : EReal) :
    ∀ (objs : List Hittable), (∀ o ∈ objs, SoundHit o) →
    ∀ (tmp rc : Hit_record) (hs : Bool) (closest : EReal),
      closest ≤ mx →
      (hs = true → mn < (rc.t : EReal) ∧ (rc.t : EReal) < mx) →
      (hitList r mn objs tmp hs closest rc).1 = true →
      mn < ((hitList r mn objs tmp hs closest rc).2.t : EReal) ∧
      ((hitList r mn objs tmp hs closest rc).2.t : EReal) < mx := by
  intro objs
  induction objs with
  | nil =>
    intro _ tmp rc hs closest _ hrec hacc
    exact hrec hacc
  | cons o rest ih =>
    intro Hmem tmp rc hs closest hcl hrec hacc
    have Hrest : ∀ o' ∈ rest, SoundHit o' := fun o' ho' => Hmem o' (List.mem_cons_of_mem _ ho')
    rw [hitList] at hacc ⊢
    rcases hres : Hittable.hit o r ⟨mn, closest⟩ tmp with ⟨b, tmp'⟩
    cases b
    · simp only [hres] at hacc ⊢
      exact ih Hrest tmp' rc hs closest hcl hrec hacc
    · simp only [hres] at hacc ⊢
      have hsound := Hmem o (List.mem_cons_self o rest) r ⟨mn, closest⟩ tmp
      rw [hres] at hsound
      have hsur := hsound rfl
      exact ih Hrest tmp' tmp' true (tmp'.t : EReal)
        (le_of_lt (lt_of_lt_of_le hsur.2 hcl))
        (fun _ => ⟨hsur.1, lt_of_lt_of_le hsur.2 hcl⟩) hacc

theorem soundHit_all (n : ℕ) : ∀ ob : Hittable, sizeOf ob ≤ n → SoundHit ob := by
  induction n using Nat.strong_induction_on with
  | _ n ih =>
    intro ob hsz
    cases ob with
    | sphere center radius mat => exact sphere_soundHit center radius mat
    | list objs =>
      intro r ivl rc hacc
      rw [hit_list_def] at hacc ⊢
      have Hmem : ∀ o ∈ objs, SoundHit o := by
        intro o ho
        have h1 : sizeOf o < sizeOf (Hittable.list objs) := by
          have h2 := List.sizeOf_lt_of_mem ho
          simp only [Hittable.list.sizeOf_spec]
          omega
        exact ih (sizeOf o) (lt_of_lt_of_le h1 hsz) o le_rfl
      exact hitList_surrounds_aux r ivl.min ivl.max objs Hmem default rc false ivl.max
        le_rfl (fun h => absurd h (by simp)) hacc

theorem hit_surrounds (ob : Hittable) : SoundHit ob :=
  soundHit_all (sizeOf ob) ob le_rfl

/-- C8: for every hittable of the code (sphere or list), an accepted hit
distance lies strictly inside the query interval
(`interval.min &lt; t &lt; interval.max` via `Interval::surrounds`); in
particular a hit consumed by `ray_color`, whose query interval is
`(0.0001, inf)`, has `t` strictly greater than 0.0001 (and `t` is a real
number, hence finite). -/
theorem hit_t_within_interval (ob : Hittable) (r : Ray) (ivl : Interval) (rc : Hit_record)
    (hacc : (ob.hit r ivl rc).1 = true) :
    ivl.surrounds ((ob.hit r ivl rc).2.t) ∧
    (ivl = rcInterval → (0.0001 : ℝ) < (ob.hit r ivl rc).2.t) := by
  have h := hit_surrounds ob r ivl rc hacc
  refine ⟨h, ?_⟩
  rintro rfl
  exact EReal.coe_lt_coe_iff.mp h.1

/-- C8 witness: the accepted axis hit at distance 4 lies inside the
`ray_color` interval and exceeds the 0.0001 epsilon. -/
theorem hit_t_within_interval_witness :
    rcInterval.surrounds
      ((Hittable.hit (.sphere ⟨0, 0, 0⟩ 1 .base) (rayAxis 5) rcInterval default).2.t) ∧
    (0.0001 : ℝ) <
      (Hittable.hit (.sphere ⟨0, 0, 0⟩ 1 .base) (rayAxis 5) rcInterval default).2.t := by
  have hacc : (Hittable.hit (.sphere ⟨0, 0, 0⟩ 1 .base) (rayAxis 5) rcInterval default).1
      = true := by
    have heq := hit_axis_small 0 5 .base default (by norm_num)
    unfold unitSphereAt at heq
    rw [heq]
  have happ := hit_t_within_interval (.sphere ⟨0, 0, 0⟩ 1 .base) (rayAxis 5) rcInterval
    default hacc
  exact ⟨happ.1, happ.2 rfl⟩

theorem sphereA_nonneg (r : Ray) : 0 ≤ sphereA r := by
  rw [show sphereA r = r.dir.length_squared from rfl]
  exact length_squared_nonneg r.dir

theorem sphereRoots_le (center : Point3) (radius : ℝ) (r : Ray) :
    sphereRootSmall center radius r ≤ sphereRootLarge center radius r := by
  unfold sphereRootSmall sphereRootLarge
  apply div_le_div_of_nonneg_right ?_ (sphereA_nonneg r)
  linarith [Real.sqrt_nonneg (sphereDisc center radius r)]

theorem sphereWrite_t (center : Point3) (radius : ℝ) (mat : Material) (r : Ray)
    (root : ℝ) (rc : Hit_record) : (sphereWrite center radius mat r root rc).t = root := rfl

theorem sphere_narrowHit (center : Point3) (radius : ℝ) (mat : Material) :
    NarrowHit (.sphere center radius mat) := by
  intro r mn c mx recN recW hcmx
  simp only [hit_sphere_def, sphereHit_eq]
  by_cases hd : sphereDisc center radius r < 0
  · simp [if_pos hd]
  · simp only [if_neg hd]
    have h12 : ((sphereRootSmall center radius r : ℝ) : EReal)
        ≤ ((sphereRootLarge center radius r : ℝ) : EReal) :=
      EReal.coe_le_coe_iff.mpr (sphereRoots_le center radius r)
    by_cases s1N : (Interval.mk mn c).surrounds (sphereRootSmall center radius r)
    · have s1W : (Interval.mk mn mx).surrounds (sphereRootSmall center radius r) :=
        ⟨s1N.1, lt_of_lt_of_le s1N.2 hcmx⟩
      simp [if_pos s1N, if_pos s1W, sphereWrite_t]
    · by_cases s2N : (Interval.mk mn c).surrounds (sphereRootLarge center radius r)
      · have s1W : ¬ (Interval.mk mn mx).surrounds (sphereRootSmall center radius r) := by
          intro hcontr
          have hge : c ≤ ((sphereRootSmall center radius r : ℝ) : EReal) := by
            by_contra hlt
            exact s1N ⟨hcontr.1, not_le.mp hlt⟩
          exact absurd (lt_of_le_of_lt (hge.trans h12) s2N.2) (lt_irrefl c)
        have s2W : (Interval.mk mn mx).surrounds (sphereRootLarge center radius r) :=
          ⟨s2N.1, lt_of_lt_of_le s2N.2 hcmx⟩
        simp [if_neg s1N, if_pos s2N, if_neg s1W, if_pos s2W, sphereWrite_t]
      · simp only [if_neg s1N, if_neg s2N]
        by_cases s1W : (Interval.mk mn mx).surrounds (sphereRootSmall center radius r)
        · have hc1 : c ≤ ((sphereRootSmall center radius r : ℝ) : EReal) := by
            by_contra hlt
            exact s1N ⟨s1W.1, not_le.mp hlt⟩
          simp [if_pos s1W, hc1, sphereWrite_t]
        · by_cases s2W : (Interval.mk mn mx).surrounds (sphereRootLarge center radius r)
          · have hc2 : c ≤ ((sphereRootLarge center radius r : ℝ) : EReal) := by
              by_contra hlt
              exact s2N ⟨s2W.1, not_le.mp hlt⟩
            simp [if_neg s1W, if_pos s2W, hc2, sphereWrite_t]
          · simp [if_neg s1W, if_neg s2W]

theorem hitList_narrow_aux (r : Ray) (mn c mx : EReal)
    (hcmx : c ≤ mx) :
    ∀ (objs : List Hittable), (∀ o ∈ objs, NarrowHit o) →
    ∀ (tmpN tmpW recN recW : Hit_record) (hsN hsW : Bool) (cN cW : EReal),
      (hsN = true → hsW = true ∧ recN.t = recW.t ∧
        cN = (recN.t : EReal) ∧ cW = (recW.t : EReal)) →
      (hsN = false → cN = c) →
      (hsN = false → hsW = false → cW = mx) →
      (hsN = false → hsW = true → c ≤ (recW.t : EReal) ∧ cW = (recW.t : EReal)) →
      ((hitList r mn objs tmpN hsN cN recN).1 = true →
        (hitList r mn objs tmpW hsW cW recW).1 = true ∧
        (hitList r mn objs tmpN hsN cN recN).2.t
          = (hitList r mn objs tmpW hsW cW recW).2.t) ∧
      ((hitList r mn objs tmpN hsN cN recN).1 = false →
        (hitList r mn objs tmpW hsW cW recW).1 = false ∨
        ((hitList r mn objs tmpW hsW cW recW).1 = true ∧
          c ≤ ((hitList r mn objs tmpW hsW cW recW).2.t : EReal))) := by
  intro objs
  induction objs with
  | nil =>
    intro _ tmpN tmpW recN recW hsN hsW cN cW inv1 inv2 inv3 inv4
    simp only [hitList]
    cases hsN
    · cases hsW
      · exact ⟨fun h => absurd h (by simp), fun _ => Or.inl rfl⟩
      · exact ⟨fun h => absurd h (by simp),
          fun _ => Or.inr ⟨rfl, (inv4 rfl rfl).1⟩⟩
    · obtain ⟨h1, h2, _, _⟩ := inv1 rfl
      subst h1
      exact ⟨fun _ => ⟨rfl, h2⟩, fun h => absurd h (by simp)⟩
  | cons o rest ih =>
    intro Hmem tmpN tmpW recN recW hsN hsW cN cW inv1 inv2 inv3 inv4
    have Hrest : ∀ o' ∈ rest, NarrowHit o' := fun o' ho' => Hmem o' (List.mem_cons_of_mem _ ho')
    have hNW : cN ≤ cW := by
      cases hsN
      · cases hsW
        · rw [inv2 rfl, inv3 rfl rfl]; exact hcmx
        · rw [inv2 rfl, (inv4 rfl rfl).2]; exact (inv4 rfl rfl).1
      · obtain ⟨_, hteq, hcN, hcW⟩ := inv1 rfl
        rw [hcN, hcW, hteq]
    rcases hN : Hittable.hit o r ⟨mn, cN⟩ tmpN with ⟨bN, tN⟩
    rcases hW : Hittable.hit o r ⟨mn, cW⟩ tmpW with ⟨bW, tW⟩
    have hnarrow := Hmem o (List.mem_cons_self o rest) r mn cN cW tmpN tmpW hNW
    rw [hN, hW] at hnarrow
    rw [hitList, hitList]
    simp only [hN, hW]
    cases bN
    · rcases hnarrow.2 rfl with hbW | ⟨hbW, hcNtW⟩
      · cases bW
        · simp only
          exact ih Hrest tN tW recN recW hsN hsW cN cW inv1 inv2 inv3 inv4
        · exact absurd hbW (by simp)
      · cases bW
        · exact absurd hbW (by simp)
        · simp only
          cases hsN
          · have hcNc : cN = c := inv2 rfl
            refine ih Hrest tN tW recN tW false true cN ((tW.t : ℝ) : EReal)
              (fun h => absurd h (by simp)) (fun _ => hcNc)
              (fun _ h => absurd h (by simp))
              (fun _ _ => ⟨hcNc ▸ hcNtW, rfl⟩)
          · exfalso
            obtain ⟨hsWtrue, hteq, hcN, hcW⟩ := inv1 rfl
            have hsur := hit_surrounds o r ⟨mn, cW⟩ tmpW
            rw [hW] at hsur
            have h2 := (hsur rfl).2
            have : cN = cW := by rw [hcN, hcW, hteq]
            rw [this] at hcNtW
            exact absurd (lt_of_le_of_lt hcNtW h2) (lt_irrefl _)
    · obtain ⟨hbW, hteq⟩ := hnarrow.1 rfl
      cases bW
      · exact absurd hbW (by simp)
      · simp only
        exact ih Hrest tN tW tN tW true true ((tN.t : ℝ) : EReal) ((tW.t : ℝ) : EReal)
          (fun _ => ⟨rfl, hteq, rfl, rfl⟩)
          (fun h => absurd h (by simp)) (fun h => absurd h (by simp))
          (fun h => absurd h (by simp))

theorem narrowHit_all (n : ℕ) : ∀ ob : Hittable, sizeOf ob ≤ n → NarrowHit ob := by
  induction n using Nat.strong_induction_on with
  | _ n ih =>
    intro ob hsz
    cases ob with
    | sphere center radius mat => exact sphere_narrowHit center radius mat
    | list objs =>
      intro r mn c mx recN recW hcmx
      have Hmem : ∀ o ∈ objs, NarrowHit o := by
        intro o ho
        have h1 : sizeOf o < sizeOf (Hittable.list objs) := by
          have h2 := List.sizeOf_lt_of_mem ho
          simp only [Hittable.list.sizeOf_spec]
          omega
        exact ih (sizeOf o) (lt_of_lt_of_le h1 hsz) o le_rfl
      simp only [hit_list_def]
      exact hitList_narrow_aux r mn c mx hcmx objs Hmem default default recN recW false false
        c mx (fun h => absurd h (by simp)) (fun _ => rfl) (fun _ _ => rfl)
        (fun _ h => absurd h (by simp))

theorem hit_narrow (ob : Hittable) : NarrowHit ob :=
  narrowHit_all (sizeOf ob) ob le_rfl

theorem hit_rec_indep (ob : Hittable) (r : Ray) (ivl : Interval) (rc rc' : Hit_record) :
    (ob.hit r ivl rc).1 = (ob.hit r ivl rc').1 ∧
    ((ob.hit r ivl rc).1 = true → (ob.hit r ivl rc).2.t = (ob.hit r ivl rc').2.t) := by
  have hn := hit_narrow ob r ivl.min ivl.max ivl.max rc rc' le_rfl
  cases hb : (ob.hit r ivl rc).1
  · rcases hn.2 hb with hW | ⟨hW, hle⟩
    · exact ⟨by rw [hW], fun h => absurd h (by simp)⟩
    · exfalso
      have hsur := (hit_surrounds ob r ivl rc' hW).2
      exact absurd (lt_of_le_of_lt hle hsur) (lt_irrefl _)
  · obtain ⟨hW, hteq⟩ := hn.1 hb
    exact ⟨by rw [hW], fun _ => hteq⟩

theorem hitList_true_of_mem (r : Ray) (mn mx : EReal) :
    ∀ (objs : List Hittable) (tmp rc : Hit_record),
      (∃ o ∈ objs, (o.hit r ⟨mn, mx⟩ default).1 = true) →
      (hitList r mn objs tmp false mx rc).1 = true := by
  intro objs
  induction objs with
  | nil =>
    rintro tmp rc ⟨o, ho, _⟩
    exact absurd ho (List.not_mem_nil o)
  | cons o rest ih =>
    rintro tmp rc ⟨o', ho', hrep⟩
    rw [hitList]
    rcases hres : Hittable.hit o r ⟨mn, mx⟩ tmp with ⟨b, tmp'⟩
    cases b
    · simp only
      rcases List.mem_cons.mp ho' with rfl | hmem
      · exfalso
        have hind := (hit_rec_indep o' r ⟨mn, mx⟩ tmp default).1
        rw [hres, hrep] at hind
        exact absurd hind (by simp)
      · exact ih tmp' rc ⟨o', hmem, hrep⟩
    · simp only
      exact hitList_isHit_of_hs r mn rest tmp' (tmp'.t : EReal) tmp'

theorem hitList_mem_of_true (r : Ray) (mn mx : EReal) :
    ∀ (objs : List Hittable) (tmp rc : Hit_record),
      (hitList r mn objs tmp false mx rc).1 = true →
      ∃ o ∈ objs, (o.hit r ⟨mn, mx⟩ default).1 = true := by
  intro objs
  induction objs with
  | nil =>
    intro tmp rc hacc
    rw [hitList] at hacc
    exact absurd hacc (by simp)
  | cons o rest ih =>
    intro tmp rc hacc
    rw [hitList] at hacc
    rcases hres : Hittable.hit o r ⟨mn, mx⟩ tmp with ⟨b, tmp'⟩
    cases b
    · simp only [hres] at hacc
      obtain ⟨o', ho', hrep⟩ := ih tmp' rc hacc
      exact ⟨o', List.mem_cons_of_mem _ ho', hrep⟩
    · refine ⟨o, List.mem_cons_self o rest, ?_⟩
      have hind := (hit_rec_indep o r ⟨mn, mx⟩ tmp default).1
      rw [hres] at hind
      exact hind.symm

theorem hitList_result_le (r : Ray) (mn : EReal) :
    ∀ (objs : List Hittable) (tmp rc : Hit_record) (hs : Bool) (closest : EReal),
      (hs = true → (rc.t : EReal) ≤ closest) →
      (hitList r mn objs tmp hs closest rc).1 = true →
      ((hitList r mn objs tmp hs closest rc).2.t : EReal) ≤ closest := by
  intro objs
  induction objs with
  | nil =>
    intro tmp rc hs closest hrc hacc
    rw [hitList] at hacc ⊢
    exact hrc hacc
  | cons o rest ih =>
    intro tmp rc hs closest hrc hacc
    rw [hitList] at hacc ⊢
    rcases hres : Hittable.hit o r ⟨mn, closest⟩ tmp with ⟨b, tmp'⟩
    cases b
    · simp only [hres] at hacc ⊢
      exact ih tmp' rc hs closest hrc hacc
    · simp only [hres] at hacc ⊢
      have hsur := hit_surrounds o r ⟨mn, closest⟩ tmp
      rw [hres] at hsur
      have h2 := (hsur rfl).2
      exact (ih tmp' tmp' true ((tmp'.t : ℝ) : EReal) (fun _ => le_rfl) hacc).trans
        (le_of_lt h2)

theorem hitList_le_report (r : Ray) (mn mx : EReal) :
    ∀ (objs : List Hittable) (o' : Hittable), o' ∈ objs →
      (o'.hit r ⟨mn, mx⟩ default).1 = true →
      ∀ (tmp rc : Hit_record) (hs : Bool) (closest : EReal),
        (hs = true → (rc.t : EReal) = closest) →
        closest ≤ mx →
        (hitList r mn objs tmp hs closest rc).1 = true →
        ((hitList r mn objs tmp hs closest rc).2.t : EReal)
          ≤ (((o'.hit r ⟨mn, mx⟩ default).2.t : ℝ) : EReal) := by
  intro objs
  induction objs with
  | nil =>
    intro o' ho'
    exact absurd ho' (List.not_mem_nil o')
  | cons o rest ih =>
    intro o' ho' hrep tmp rc hs closest hrc hclmx hacc
    rw [hitList] at hacc ⊢
    rcases hres : Hittable.hit o r ⟨mn, closest⟩ tmp with ⟨b, tmp'⟩
    rcases List.mem_cons.mp ho' with rfl | hmem
    · have hnar := hit_narrow o' r mn closest mx tmp default hclmx
      rw [hres] at hnar
      cases b
      · rcases hnar.2 rfl with hWf | ⟨_, hle⟩
        · rw [hrep] at hWf
          exact absurd hWf (by simp)
        · simp only [hres] at hacc ⊢
          exact (hitList_result_le r mn rest tmp' rc hs closest
            (fun h => le_of_eq (hrc h)) hacc).trans hle
      · obtain ⟨_, hteq⟩ := hnar.1 rfl
        have hteq2 : tmp'.t = (Hittable.hit o' r ⟨mn, mx⟩ default).2.t := hteq
        simp only [hres] at hacc ⊢
        have hres_le := hitList_result_le r mn rest tmp' tmp' true ((tmp'.t : ℝ) : EReal)
          (fun _ => le_rfl) hacc
        exact hres_le.trans_eq (congrArg Real.toEReal hteq2)
    · cases b
      · simp only [hres] at hacc ⊢
        exact ih o' hmem hrep tmp' rc hs closest hrc hclmx hacc
      · simp only [hres] at hacc ⊢
        have hsur := hit_surrounds o r ⟨mn, closest⟩ tmp
        rw [hres] at hsur
        have h2 := (hsur rfl).2
        exact ih o' hmem hrep tmp' tmp' true ((tmp'.t : ℝ) : EReal) (fun _ => rfl)
          (le_of_lt (lt_of_lt_of_le h2 hclmx)) hacc

/-- C2: `Hittable_list::hit` returns true exactly when some member,
queried alone, reports an intersection inside the interval; the record it
forwards never carries a farther distance than any member's individually
accepted one (nearest-hit invariant, obtained by narrowing the interval's
upper bound in insertion order); and an empty list always reports no
hit. -/
theorem hittable_list_hit_nearest (objs : List Hittable) (r : Ray) (ivl : Interval)
    (rc : Hit_record) :
    ((Hittable.hit (.list objs) r ivl rc).1 = true ↔
      ∃ o ∈ objs, (Hittable.hit o r ivl default).1 = true) ∧
    (∀ o ∈ objs, (Hittable.hit o r ivl default).1 = true →
      (Hittable.hit (.list objs) r ivl rc).1 = true ∧
      (Hittable.hit (.list objs) r ivl rc).2.t ≤ (Hittable.hit o r ivl default).2.t) ∧
    (Hittable.hit (.list ([] : List Hittable)) r ivl rc).1 = false := by
  refine ⟨⟨?_, ?_⟩, ?_, ?_⟩
  · intro hacc
    rw [hit_list_def] at hacc
    exact hitList_mem_of_true r ivl.min ivl.max objs default rc hacc
  · intro hex
    rw [hit_list_def]
    exact hitList_true_of_mem r ivl.min ivl.max objs default rc hex
  · intro o ho hrep
    have hacc : (Hittable.hit (.list objs) r ivl rc).1 = true := by
      rw [hit_list_def]
      exact hitList_true_of_mem r ivl.min ivl.max objs default rc ⟨o, ho, hrep⟩
    refine ⟨hacc, ?_⟩
    rw [hit_list_def] at hacc ⊢
    have hle := hitList_le_report r ivl.min ivl.max objs o ho hrep default rc false
      ivl.max (fun h => absurd h (by simp)) le_rfl hacc
    exact EReal.coe_le_coe_iff.mp hle
  · rw [hit_list_def]; rfl

/-- C2 witness: a list of two spheres on the axis, both hit by the same
ray; the list reports a hit and forwards a distance no farther than the
nearer sphere's individually accepted distance. -/
theorem hittable_list_hit_nearest_witness :
    (Hittable.hit (.list [.sphere ⟨0, 0, 0⟩ 1 .base, .sphere ⟨0, 0, 3⟩ 1 .base])
        (rayAxis 5) rcInterval default).1 = true ∧
    (Hittable.hit (.list [.sphere ⟨0, 0, 0⟩ 1 .base, .sphere ⟨0, 0, 3⟩ 1 .base])
        (rayAxis 5) rcInterval default).2.t ≤
      (Hittable.hit (.sphere ⟨0, 0, 3⟩ 1 .base) (rayAxis 5) rcInterval default).2.t := by
  have hrep : (Hittable.hit (.sphere ⟨0, 0, 3⟩ 1 .base) (rayAxis 5) rcInterval default).1
      = true := by
    have heq := hit_axis_small 3 5 .base default (by norm_num)
    unfold unitSphereAt at heq
    rw [heq]
  exact (hittable_list_hit_nearest [.sphere ⟨0, 0, 0⟩ 1 .base, .sphere ⟨0, 0, 3⟩ 1 .base]
    (rayAxis 5) rcInterval default).2.1 (.sphere ⟨0, 0, 3⟩ 1 .base)
    (List.mem_cons_of_mem _ (List.mem_cons_self _ _)) hrep

theorem pixel_decomp {W C : ℕ} (y x k : ℕ) (hx : x < W) (hk : k < C) :
    ((y * W + x) * C + k) / (W * C) = y ∧
    ((y * W + x) * C + k) % (W * C) / C = x ∧
    ((y * W + x) * C + k) % (W * C) % C = k := by
  have hWC : (y * W + x) * C + k = y * (W * C) + (x * C + k) := by ring
  have hlt : x * C + k < W * C := by
    calc x * C + k < x * C + C := by omega
    _ = (x + 1) * C := by ring
    _ ≤ W * C := Nat.mul_le_mul_right C (by omega)
  have h1 := base_decomp (W := W * C) y (x * C + k) hlt
  have h2 := base_decomp (W := C) x k hk
  rw [hWC]
  exact ⟨h1.1, by rw [h1.2]; exact h2.1, by rw [h1.2]; exact h2.2⟩

theorem setPixel_apply_at (cam : Camera) (img : ℕ → ℤ) (x y : ℕ) (c : Color) (k : ℕ)
    (hk : k < 3) :
    setPixel cam img x y c (pixelIndex cam x y + k) = storedByte (channelVal c k) := by
  unfold setPixel
  interval_cases k
  · rw [Nat.add_zero, if_pos rfl]; rfl
  · rw [if_neg (by omega), if_pos rfl]; rfl
  · rw [if_neg (by omega), if_neg (by omega), if_pos rfl]; rfl

theorem setPixel_apply_ne (cam : Camera) (img : ℕ → ℤ) (x y : ℕ) (c : Color) (i : ℕ)
    (hne : ∀ k, k < 3 → i ≠ pixelIndex cam x y + k) :
    setPixel cam img x y c i = img i := by
  unfold setPixel
  rw [if_neg (by have := hne 0 (by omega); omega), if_neg (hne 1 (by omega)),
    if_neg (hne 2 (by omega))]

theorem pixel_owner_iff (cam : Camera) (x y i : ℕ) (hC : 3 ≤ cam.image_channels)
    (hx : x < cam.image_width) :
    (∃ k, k < 3 ∧ i = pixelIndex cam x y + k) ↔
      (i / (cam.image_width * cam.image_channels) = y ∧
       i % (cam.image_width * cam.image_channels) % cam.image_channels < 3 ∧
       i % (cam.image_width * cam.image_channels) / cam.image_channels = x) := by
  constructor
  · rintro ⟨k, hk, rfl⟩
    unfold pixelIndex
    obtain ⟨d1, d2, d3⟩ := pixel_decomp (C := cam.image_channels) y x k hx
      (lt_of_lt_of_le hk hC)
    exact ⟨d1, by rw [d3]; exact hk, d2⟩
  · rintro ⟨h1, h2, h3⟩
    refine ⟨i % (cam.image_width * cam.image_channels) % cam.image_channels, h2, ?_⟩
    unfold pixelIndex
    rw [← h1, ← h3]
    have e2 := Nat.div_add_mod' (i % (cam.image_width * cam.image_channels))
      cam.image_channels
    have e1 := Nat.div_add_mod' i (cam.image_width * cam.image_channels)
    calc i = i / (cam.image_width * cam.image_channels) * (cam.image_width * cam.image_channels)
          + i % (cam.image_width * cam.image_channels) := e1.symm
    _ = i / (cam.image_width * cam.image_channels) * (cam.image_width * cam.image_channels)
          + (i % (cam.image_width * cam.image_channels) / cam.image_channels * cam.image_channels
            + i % (cam.image_width * cam.image_channels) % cam.image_channels) := by rw [e2]
    _ = (i / (cam.image_width * cam.image_channels) * cam.image_width
          + i % (cam.image_width * cam.image_channels) / cam.image_channels) * cam.image_channels
          + i % (cam.image_width * cam.image_channels) % cam.image_channels := by ring

theorem setPixel_apply_owner (cam : Camera) (img : ℕ → ℤ) (x y : ℕ) (c : Color) (i : ℕ)
    (hC : 3 ≤ cam.image_channels) (hx : x < cam.image_width)
    (hown : i / (cam.image_width * cam.image_channels) = y ∧
      i % (cam.image_width * cam.image_channels) % cam.image_channels < 3 ∧
      i % (cam.image_width * cam.image_channels) / cam.image_channels = x) :
    setPixel cam img x y c i =
      storedByte (channelVal c (i % (cam.image_width * cam.image_channels)
        % cam.image_channels)) := by
  obtain ⟨k, hk3, hik⟩ := (pixel_owner_iff cam x y i hC hx).mpr hown
  have hmod : i % (cam.image_width * cam.image_channels) % cam.image_channels = k := by
    rw [hik]
    exact (pixel_decomp (C := cam.image_channels) y x k hx (lt_of_lt_of_le hk3 hC)).2.2
  rw [hmod, hik, setPixel_apply_at cam img x y c k hk3]

theorem renderRow_fold_apply (cam : Camera) (scene : Hittable)
    (ξ : ℕ → ℕ → ℕ → ℝ × ℝ) (η : ℕ → ℕ → ℕ → ℕ → Vec3) (y : ℕ)
    (hC : 3 ≤ cam.image_channels) :
    ∀ (xs : List ℕ), (∀ x ∈ xs, x < cam.image_width) → ∀ (img : ℕ → ℤ) (i : ℕ),
      (xs.foldl (fun im x => setPixel cam im x y (computePixelColor cam scene ξ η x y)) img) i =
      if i / (cam.image_width * cam.image_channels) = y ∧
          i % (cam.image_width * cam.image_channels) % cam.image_channels < 3 ∧
          i % (cam.image_width * cam.image_channels) / cam.image_channels ∈ xs then
        storedByte (channelVal
          (computePixelColor cam scene ξ η
            (i % (cam.image_width * cam.image_channels) / cam.image_channels) y)
          (i % (cam.image_width * cam.image_channels) % cam.image_channels))
      else img i := by
  intro xs
  induction xs with
  | nil =>
    intro _ img i
    rw [List.foldl_nil, if_neg (fun hc => absurd hc.2.2 (List.not_mem_nil _))]
  | cons x xs' ih =>
    intro hmem img i
    have hxW : x < cam.image_width := hmem x (List.mem_cons_self _ _)
    rw [List.foldl_cons, ih (fun x' hx' => hmem x' (List.mem_cons_of_mem _ hx'))]
    by_cases hcond : i / (cam.image_width * cam.image_channels) = y ∧
        i % (cam.image_width * cam.image_channels) % cam.image_channels < 3 ∧
        i % (cam.image_width * cam.image_channels) / cam.image_channels ∈ xs'
    · rw [if_pos hcond, if_pos ⟨hcond.1, hcond.2.1, List.mem_cons_of_mem _ hcond.2.2⟩]
    · rw [if_neg hcond]
      by_cases hown : i / (cam.image_width * cam.image_channels) = y ∧
          i % (cam.image_width * cam.image_channels) % cam.image_channels < 3 ∧
          i % (cam.image_width * cam.image_channels) / cam.image_channels = x
      · rw [setPixel_apply_owner cam img x y _ i hC hxW hown,
          if_pos ⟨hown.1, hown.2.1, by rw [hown.2.2]; exact List.mem_cons_self _ _⟩,
          hown.2.2]
      · have hne : ∀ k, k < 3 → i ≠ pixelIndex cam x y + k := by
          intro k hk hik
          exact hown ((pixel_owner_iff cam x y i hC hxW).mp ⟨k, hk, hik⟩)
        rw [setPixel_apply_ne cam img x y _ i hne, if_neg ?_]
        intro hc
        rcases List.mem_cons.mp hc.2.2 with he | hm
        · exact hown ⟨hc.1, hc.2.1, he⟩
        · exact hcond ⟨hc.1, hc.2.1, hm⟩

theorem renderRow_apply (cam : Camera) (scene : Hittable)
    (ξ : ℕ → ℕ → ℕ → ℝ × ℝ) (η : ℕ → ℕ → ℕ → ℕ → Vec3) (y : ℕ)
    (hC : 3 ≤ cam.image_channels) (img : ℕ → ℤ) (i : ℕ) :
    renderRow cam scene ξ η y img i =
      if i / (cam.image_width * cam.image_channels) = y ∧
          i % (cam.image_width * cam.image_channels) % cam.image_channels < 3 ∧
          i % (cam.image_width * cam.image_channels) / cam.image_channels
            < cam.image_width then
        storedByte (channelVal
          (computePixelColor cam scene ξ η
            (i % (cam.image_width * cam.image_channels) / cam.image_channels) y)
          (i % (cam.image_width * cam.image_channels) % cam.image_channels))
      else img i := by
  unfold renderRow
  rw [renderRow_fold_apply cam scene ξ η y hC (List.range cam.image_width)
    (fun x hx => List.mem_range.mp hx) img i]
  exact if_congr (by rw [List.mem_range]) rfl rfl

theorem renderRows_apply (cam : Camera) (scene : Hittable)
    (ξ : ℕ → ℕ → ℕ → ℝ × ℝ) (η : ℕ → ℕ → ℕ → ℕ → Vec3)
    (hC : 3 ≤ cam.image_channels) :
    ∀ (rows : List ℕ) (img : ℕ → ℤ) (i : ℕ),
      renderRows cam scene ξ η rows img i =
      if i / (cam.image_width * cam.image_channels) ∈ rows ∧
          i % (cam.image_width * cam.image_channels) % cam.image_channels < 3 ∧
          i % (cam.image_width * cam.image_channels) / cam.image_channels
            < cam.image_width then
        storedByte (channelVal
          (computePixelColor cam scene ξ η
            (i % (cam.image_width * cam.image_channels) / cam.image_channels)
            (i / (cam.image_width * cam.image_channels)))
          (i % (cam.image_width * cam.image_channels) % cam.image_channels))
      else img i := by
  intro rows
  induction rows with
  | nil =>
    intro img i
    rw [if_neg (fun hc => absurd hc.1 (List.not_mem_nil _))]
    rfl
  | cons yy rows' ih =>
    intro img i
    have hstep : renderRows cam scene ξ η (yy :: rows') img
        = renderRows cam scene ξ η rows' (renderRow cam scene ξ η yy img) := rfl
    rw [hstep, ih, renderRow_apply cam scene ξ η yy hC img i]
    by_cases hcond : i / (cam.image_width * cam.image_channels) ∈ rows' ∧
        i % (cam.image_width * cam.image_channels) % cam.image_channels < 3 ∧
        i % (cam.image_width * cam.image_channels) / cam.image_channels < cam.image_width
    · rw [if_pos hcond, if_pos ⟨List.mem_cons_of_mem _ hcond.1, hcond.2⟩]
    · rw [if_neg hcond]
      by_cases hyy : i / (cam.image_width * cam.image_channels) = yy ∧
          i % (cam.image_width * cam.image_channels) % cam.image_channels < 3 ∧
          i % (cam.image_width * cam.image_channels) / cam.image_channels < cam.image_width
      · rw [if_pos hyy, if_pos ⟨by rw [hyy.1]; exact List.mem_cons_self _ _, hyy.2⟩,
          hyy.1]
      · rw [if_neg hyy, if_neg ?_]
        intro hc
        rcases List.mem_cons.mp hc.1 with he | hm
        · exact hyy ⟨he, hc.2⟩
        · exact hcond ⟨hm, hc.2⟩

theorem chunk_coverage (cam : Camera) (N : ℕ) (hN : 0 < N) (y : ℕ) :
    (∃ t, t < N ∧ y ∈ chunkRows cam N t) ↔ y < cam.image_height := by
  have hkH : (N - 1) * (cam.image_height / N) ≤ cam.image_height := by
    calc (N - 1) * (cam.image_height / N) ≤ N * (cam.image_height / N) :=
      Nat.mul_le_mul_right _ (by omega)
    _ ≤ cam.image_height := by
      rw [Nat.mul_comm]
      exact Nat.div_mul_le_self _ _
  constructor
  · rintro ⟨t, htN, hmem⟩
    unfold chunkRows at hmem
    rw [List.mem_range'_1] at hmem
    by_cases hlast : t = N - 1
    · rw [if_pos hlast] at hmem
      subst hlast
      omega
    · rw [if_neg hlast] at hmem
      have ht1 : t + 1 ≤ N - 1 := by omega
      have hmono : (t + 1) * (cam.image_height / N) ≤ (N - 1) * (cam.image_height / N) :=
        Nat.mul_le_mul_right _ ht1
      have hexp : (t + 1) * (cam.image_height / N)
          = t * (cam.image_height / N) + cam.image_height / N := by ring
      omega
  · intro hy
    by_cases hk : cam.image_height / N = 0
    · refine ⟨N - 1, by omega, ?_⟩
      unfold chunkRows
      rw [List.mem_range'_1, if_pos rfl, hk]
      omega
    · by_cases ht0 : y / (cam.image_height / N) < N - 1
      · refine ⟨y / (cam.image_height / N), by omega, ?_⟩
        unfold chunkRows
        rw [List.mem_range'_1, if_neg (by omega)]
        have hdm := Nat.div_add_mod y (cam.image_height / N)
        have hmlt := Nat.mod_lt y (Nat.pos_of_ne_zero hk)
        have hcomm : y / (cam.image_height / N) * (cam.image_height / N)
            = cam.image_height / N * (y / (cam.image_height / N)) := Nat.mul_comm _ _
        omega
      · refine ⟨N - 1, by omega, ?_⟩
        unfold chunkRows
        rw [List.mem_range'_1, if_pos rfl]
        have hge : N - 1 ≤ y / (cam.image_height / N) := by omega
        have h1 : (N - 1) * (cam.image_height / N)
            ≤ y / (cam.image_height / N) * (cam.image_height / N) :=
          Nat.mul_le_mul_right _ hge
        have h2 : y / (cam.image_height / N) * (cam.image_height / N) ≤ y :=
          Nat.div_mul_le_self _ _
        omega

/-- C4: with the per-pixel sampling streams made explicit (the claim's
premise of a seed-per-pixel random sample sequence), the sequential
renderer and the multi-threaded renderer write pixel-identical buffers:
both write, for every pixel, the bytes of `computePixelColor`, which
depends only on the pixel's coordinates, the scene and the pixel's own
sample streams; the parallel strategy partitions the rows into
`num_threads` contiguous bands (the last absorbing the remainder) whose
writes are disjoint, so any completion order of the bands yields the
sequential buffer. -/
theorem render_sequential_parallel_agree (cam : Camera) (scene : Hittable)
    (ξ : ℕ → ℕ → ℕ → ℝ × ℝ) (η : ℕ → ℕ → ℕ → ℕ → Vec3) (img : ℕ → ℤ)
    (N : ℕ) (order : List ℕ)
    (hC : 3 ≤ cam.image_channels) (hN : 0 < N) (hperm : order.Perm (List.range N)) :
    renderPixelsParallel cam scene ξ η N order img = renderPixels cam scene ξ η img := by
  have hpar : ∀ (ord : List ℕ) (im : ℕ → ℤ) (i : ℕ),
      renderPixelsParallel cam scene ξ η N ord im i =
      if (∃ t ∈ ord, i / (cam.image_width * cam.image_channels) ∈ chunkRows cam N t) ∧
          i % (cam.image_width * cam.image_channels) % cam.image_channels < 3 ∧
          i % (cam.image_width * cam.image_channels) / cam.image_channels
            < cam.image_width then
        storedByte (channelVal
          (computePixelColor cam scene ξ η
            (i % (cam.image_width * cam.image_channels) / cam.image_channels)
            (i / (cam.image_width * cam.image_channels)))
          (i % (cam.image_width * cam.image_channels) % cam.image_channels))
      else im i := by
    intro ord
    induction ord with
    | nil =>
      intro im i
      rw [if_neg ?_]
      · rfl
      · rintro ⟨⟨t, ht, _⟩, _, _⟩
        exact absurd ht (List.not_mem_nil _)
    | cons t ord' ih =>
      intro im i
      have hstep : renderPixelsParallel cam scene ξ η N (t :: ord') im
          = renderPixelsParallel cam scene ξ η N ord'
            (renderRows cam scene ξ η (chunkRows cam N t) im) := rfl
      rw [hstep, ih, renderRows_apply cam scene ξ η hC (chunkRows cam N t) im i]
      by_cases hcond : (∃ t' ∈ ord',
          i / (cam.image_width * cam.image_channels) ∈ chunkRows cam N t') ∧
          i % (cam.image_width * cam.image_channels) % cam.image_channels < 3 ∧
          i % (cam.image_width * cam.image_channels) / cam.image_channels < cam.image_width
      · have hx' : ∃ t' ∈ t :: ord',
            i / (cam.image_width * cam.image_channels) ∈ chunkRows cam N t' := by
          obtain ⟨t', ht', hm⟩ := hcond.1
          exact ⟨t', List.mem_cons_of_mem _ ht', hm⟩
        rw [if_pos hcond, if_pos ⟨hx', hcond.2⟩]
      · rw [if_neg hcond]
        by_cases hhead : i / (cam.image_width * cam.image_channels) ∈ chunkRows cam N t ∧
            i % (cam.image_width * cam.image_channels) % cam.image_channels < 3 ∧
            i % (cam.image_width * cam.image_channels) / cam.image_channels
              < cam.image_width
        · rw [if_pos hhead, if_pos ⟨⟨t, List.mem_cons_self _ _, hhead.1⟩, hhead.2⟩]
        · rw [if_neg hhead, if_neg ?_]
          rintro ⟨⟨t', ht', hm⟩, h2, h3⟩
          rcases List.mem_cons.mp ht' with rfl | hmem
          · exact hhead ⟨hm, h2, h3⟩
          · exact hcond ⟨⟨t', hmem, hm⟩, h2, h3⟩
  funext i
  rw [hpar order img i]
  have hseq : renderPixels cam scene ξ η img i =
      if i / (cam.image_width * cam.image_channels) ∈ List.range cam.image_height ∧
          i % (cam.image_width * cam.image_channels) % cam.image_channels < 3 ∧
          i % (cam.image_width * cam.image_channels) / cam.image_channels
            < cam.image_width then
        storedByte (channelVal
          (computePixelColor cam scene ξ η
            (i % (cam.image_width * cam.image_channels) / cam.image_channels)
            (i / (cam.image_width * cam.image_channels)))
          (i % (cam.image_width * cam.image_channels) % cam.image_channels))
      else img i :=
    renderRows_apply cam scene ξ η hC (List.range cam.image_height) img i
  rw [hseq]
  refine if_congr (and_congr ?_ Iff.rfl) rfl rfl
  rw [List.mem_range, ← chunk_coverage cam N hN]
  constructor
  · rintro ⟨t, ht, hm⟩
    exact ⟨t, by rw [← List.mem_range]; exact hperm.mem_iff.mp ht, hm⟩
  · rintro ⟨t, ht, hm⟩
    exact ⟨t, hperm.mem_iff.mpr (List.mem_range.mpr ht), hm⟩

/-- C4 witness: a 1-by-2 image split over two threads completing in
reverse order yields the sequential buffer. -/
theorem render_sequential_parallel_agree_witness :
    renderPixelsParallel (Camera.mk 1 2 3 1 1 default default default default) (.list [])
        (fun _ _ _ => (0, 0)) (fun _ _ _ _ => default) 2 [1, 0] (fun _ => 0)
      = renderPixels (Camera.mk 1 2 3 1 1 default default default default) (.list [])
        (fun _ _ _ => (0, 0)) (fun _ _ _ _ => default) (fun _ => 0) := by
  apply render_sequential_parallel_agree
  · show (3 : ℕ) ≤ 3
    norm_num
  · norm_num
  · decide

/-- C9 witness: a ray that misses the sphere (negative discriminant)
leaves the default record untouched. -/
theorem hit_false_leaves_record_witness :
    (Hittable.hit (.sphere ⟨5, 0, 0⟩ 1 .base) (rayAxis 3) rcInterval default).2 = default := by
  apply hit_false_leaves_record
  rw [hit_miss_example .base default rcInterval]

/-- C10 witness: on a 4-by-2, 3-channel camera, writing pixel (1, 0)
leaves cell 0 unchanged and its index triple is disjoint from that of
pixel (2, 0). -/
theorem setPixel_frame_witness :
    setPixel (Camera.mk 4 2 3 1 1 default default default default) (fun _ => 0) 1 0
        ⟨1, 1, 1⟩ 0 = (0 : ℤ) ∧
    pixelIndex (Camera.mk 4 2 3 1 1 default default default default) 1 0 + 2
      ≠ pixelIndex (Camera.mk 4 2 3 1 1 default default default default) 2 0 + 0 := by
  have happ := setPixel_frame (Camera.mk 4 2 3 1 1 default default default default)
    (fun _ => 0) 1 0 ⟨1, 1, 1⟩
  refine ⟨happ.1 0 ?_ ?_ ?_, happ.2.2.2.2 2 0 ?_ ?_ ?_ ?_ 2 0 ?_ ?_⟩
  · show (0 : ℕ) ≠ 3; norm_num
  · show (0 : ℕ) ≠ 4; norm_num
  · show (0 : ℕ) ≠ 5; norm_num
  · show (1 : ℕ) < 4; norm_num
  · show (2 : ℕ) < 4; norm_num
  · show (3 : ℕ) ≤ 3; norm_num
  · decide
  · norm_num
  · norm_num

end RT
